import Mathlib

/-!
Shallow embedding of the video-preprocessing utility scripts.

Each definition mirrors one function (or one line) of the Python sources:
  - `vid_folder_cut_frame.py` : frame extraction, statistics, random subsampling
  - `merge_folder.py`         : folder combination with collision-resolving names
  - `count_id_in_lbls.py`     : class-id counting over label files
  - `shuffle_datasets.py`     : shuffling/batching of image-label pairs

Machine reals (Python floats) are idealised as exact rationals; the filesystem
is modelled as association lists from file names to abstract contents.
-/

namespace VidPrep

/-! ### `os.path.splitext` (CPython `genericpath._splitext`, on a bare file name)

Split at the last `.`, unless every character before that dot is itself a dot
(leading-dot file names such as `.jpg` are not split). -/

/-- Split a character list before its last `'.'`: returns `(pre, post)` with
`pre ++ post` the input and `post` starting at the last dot, or `none` when no
dot occurs. -/
def lastDotSplit : List Char → Option (List Char × List Char)
  | [] => none
  | c :: cs =>
    match lastDotSplit cs with
    | some (pre, post) => some (c :: pre, post)
    | none => if c = '.' then some ([], c :: cs) else none

/-- Python `os.path.splitext` on a bare file name. -/
def pySplitext (s : String) : String × String :=
  match lastDotSplit s.data with
  | some (pre, post) =>
    if pre.all (fun c => c = '.') then (s, "") else (String.mk pre, String.mk post)
  | none => (s, "")

/-! ### Decimal digits: a structural companion of `Nat.repr` -/

/-- Most-significant-first decimal digits of `n`, as characters; agrees with
`Nat.toDigits 10 n` (proved below). -/
def natDigits (n : Nat) : List Char :=
  if _h : n < 10 then [Nat.digitChar n]
  else natDigits (n / 10) ++ [Nat.digitChar (n % 10)]
  termination_by n
  decreasing_by exact Nat.div_lt_self (by omega) (by omega)

/-! ### Frame extraction (`vid_folder_cut_frame.py`, `extract_frames`) -/

/-- Python format `f"{k:05d}"`: the decimal digits of `k`, left-padded with
`'0'` to a minimum width of 5. -/
def pad5 (k : Nat) : String :=
  String.mk (List.replicate (5 - (Nat.repr k).length) '0') ++ Nat.repr k

/-- `f'{video_name_without_ext}_frame_{saved_frame_count:05d}.jpg'` -/
def frameFilename (base : String) (savedFrameCount : Nat) : String :=
  base ++ "_frame_" ++ pad5 savedFrameCount ++ ".jpg"

/-- One frame written to disk by `extract_frames`: its zero-based ordinal index
in the video, the value of the save counter when it was written, the file name
it was saved under, and the frame data itself. -/
structure SavedFrame (α : Type) where
  ordinal : Nat
  saveIdx : Nat
  filename : String
  frame : α
deriving DecidableEq

/-- The `while cap.isOpened(): ret, frame = cap.read() ...` loop of
`extract_frames`, over the list of frames the decoder yields.
`frameCount` and `savedCount` are the two loop counters; a frame is saved
exactly when `frame_count % n == 0`. -/
def extractLoop (base : String) (n : Nat) :
    List α → Nat → Nat → List (SavedFrame α)
  | [], _, _ => []
  | f :: rest, frameCount, savedCount =>
    if frameCount % n = 0 then
      { ordinal := frameCount, saveIdx := savedCount,
        filename := frameFilename base savedCount, frame := f } ::
        extractLoop base n rest (frameCount + 1) (savedCount + 1)
    else
      extractLoop base n rest (frameCount + 1) savedCount

/-- Frames saved for one video: the loop started with both counters at 0. -/
def extractVideoFrames (base : String) (n : Nat) (frames : List α) :
    List (SavedFrame α) :=
  extractLoop base n frames 0 0

/-! ### `ProcessingStats` (`vid_folder_cut_frame.py`) -/

/-- The mutable statistics object.  `video_stats` is the `defaultdict`
in insertion order, each entry carrying (`frames`, `extracted`). -/
structure ProcessingStats where
  total_videos : Nat
  processed_videos : Nat
  total_frames : Nat
  extracted_frames : Nat
  video_stats : List (String × Nat × Nat)
deriving DecidableEq

def initialStats : ProcessingStats :=
  { total_videos := 0, processed_videos := 0, total_frames := 0,
    extracted_frames := 0, video_stats := [] }

/-- `self.video_stats[video_name]['frames'] = total_frames` and
`...['extracted'] = extracted_frames` on a `defaultdict`: overwrite the entry
when the key is present, append a fresh entry otherwise. -/
def setVideoEntry : List (String × Nat × Nat) → String → Nat → Nat →
    List (String × Nat × Nat)
  | [], name, t, e => [(name, t, e)]
  | (m, p) :: rest, name, t, e =>
    if m = name then (m, t, e) :: rest
    else (m, p) :: setVideoEntry rest name t e

/-- `ProcessingStats.update_video_stats`. -/
def update_video_stats (s : ProcessingStats) (videoName : String)
    (totalFrames extractedFrames : Nat) : ProcessingStats :=
  { s with
    video_stats := setVideoEntry s.video_stats videoName totalFrames extractedFrames,
    total_frames := s.total_frames + totalFrames,
    extracted_frames := s.extracted_frames + extractedFrames,
    processed_videos := s.processed_videos + 1 }

/-- Apply a sequence of `update_video_stats` calls in order. -/
def runUpdates (s : ProcessingStats) (calls : List (String × Nat × Nat)) :
    ProcessingStats :=
  calls.foldl (fun st c => update_video_stats st c.1 c.2.1 c.2.2) s

/-! ### The per-video body of `extract_frames` -/

/-- One input video as the decoder presents it: `opensOk` is whether
`cv2.VideoCapture(video_path)` opened it; `reportedTotal` is the value of
`cap.get(cv2.CAP_PROP_FRAME_COUNT)` on a successful open (it is `0` for a
capture that failed to open); `frames` are the frames `cap.read()` yields
before returning `ret = False`. -/
structure Video (α : Type) where
  name : String
  opensOk : Bool
  reportedTotal : Nat
  frames : List α
deriving DecidableEq

/-- The body of the `for video_name in video_files:` loop.  When the capture
is not opened, `while cap.isOpened():` never runs (no frame is read, nothing
is saved, no message is printed) and `cap.get(cv2.CAP_PROP_FRAME_COUNT)`
yields `0`; `stats.update_video_stats(...)` is executed unconditionally. -/
def processOneVideo (n : Nat) (s : ProcessingStats) (v : Video α) :
    ProcessingStats :=
  let decoded := if v.opensOk then v.frames else []
  let totalFrames := if v.opensOk then v.reportedTotal else 0
  let saved := extractVideoFrames (pySplitext v.name).1 n decoded
  update_video_stats s v.name totalFrames saved.length

/-- `extract_frames`: set `stats.total_videos`, then process each video in
turn.  The returned value is the final state of the global `stats` object. -/
def extract_frames (videos : List (Video α)) (n : Nat) : ProcessingStats :=
  videos.foldl (processOneVideo n)
    { initialStats with total_videos := videos.length }

/-! ### Random subsampling (`vid_folder_cut_frame.py`, `process_folder`) -/

/-- Python `int(...)` on a rational value: truncation toward zero. -/
def pyInt (q : ℚ) : ℤ :=
  if q < 0 then -⌊-q⌋ else ⌊q⌋

/-- The value returned by `process_folder`, extended with the list of files
remaining in the folder after the deletion stage (the `filter` mirrors
`frame not in frames_to_keep_set` deciding each `remove_tasks` entry). -/
structure FolderResult where
  total_frames : Nat
  frames_to_keep : Nat
  removed_count : Nat
  remaining : List String
deriving DecidableEq

/-- `process_folder(folder_path, keep_percentage)`.  `sample` stands for
`random.sample`; the result is `none` when `random.sample(all_frames,
frames_to_keep)` raises `ValueError` (sample size negative or larger than the
population) — that call precedes the construction of `remove_tasks`, so in the
`none` case no deletion has been attempted and the folder is unchanged. -/
def process_folder (sample : List String → Nat → List String)
    (allFrames : List String) (keepPercentage : ℚ) : Option FolderResult :=
  let totalFrames := allFrames.length
  if totalFrames = 0 then some ⟨0, 0, 0, allFrames⟩
  else
    let z : ℤ := pyInt ((totalFrames : ℚ) * keepPercentage)
    if z < 0 ∨ (totalFrames : ℤ) < z then none
    else
      let framesToKeep := z.toNat
      let keepList := sample allFrames framesToKeep
      let remaining := allFrames.filter (fun f => f ∈ keepList)
      let removedCount := (allFrames.filter (fun f => f ∉ keepList)).length
      some ⟨totalFrames, framesToKeep, removedCount, remaining⟩

/-- What `random.sample(population, k)` guarantees on a duplicate-free
population (as `os.listdir` yields) whenever `k` does not exceed the
population size: `k` chosen elements, pairwise distinct, all drawn from the
population. -/
def ValidSampler (sample : List String → Nat → List String) : Prop :=
  ∀ (l : List String) (k : Nat), l.Nodup → k ≤ l.length →
    (sample l k).length = k ∧ (sample l k).Nodup ∧ ∀ x ∈ sample l k, x ∈ l

/-- A concrete sampler (take the first `k` files), used to instantiate the
theorems at concrete inputs. -/
def sampleTake (l : List String) (k : Nat) : List String :=
  l.take k

/-! ### Folder combination (`merge_folder.py`, `combine_folders`)

The output folder is an association list from file names to file contents,
in creation order. -/

/-- The names present in a folder. -/
def fsNames (fs : List (String × α)) : List String :=
  fs.map (fun e => e.1)

/-- The candidate name `f"{name}_{counter}{ext}"`. -/
def mkCand (name ext : String) (counter : Nat) : String :=
  name ++ "_" ++ Nat.repr counter ++ ext

/-- The `while os.path.exists(dest_path):` loop of `combine_folders`,
with explicit fuel (the loop always terminates because the candidate names
are pairwise distinct while the folder is finite; proved below). -/
def resolveGo (names : List String) (name ext : String) :
    Nat → String → Nat → String
  | 0, dest, _ => dest
  | fuel + 1, dest, counter =>
    if dest ∈ names then
      resolveGo names name ext fuel (mkCand name ext counter) (counter + 1)
    else dest

/-- Destination name chosen for `image` given the names already present:
first candidate is `image` itself, then `name_1.ext`, `name_2.ext`, … -/
def resolveName (names : List String) (image : String) : String :=
  resolveGo names (pySplitext image).1 (pySplitext image).2
    (names.length + 1) image 1

/-- The candidate names `resolveGo` examines, in order (an observer used to
prove that the collision-resolution loop terminates on a fresh name). -/
def candList (name ext : String) : Nat → String → Nat → List String
  | 0, _, _ => []
  | fuel + 1, dest, counter =>
    dest :: candList name ext fuel (mkCand name ext counter) (counter + 1)

/-- `shutil.copy(src_path, dest_path)` after the collision-resolution loop:
the output folder gains one entry whose content is the source content. -/
def copyResolved (out : List (String × α)) (image : String) (content : α) :
    List (String × α) :=
  out ++ [(resolveName (fsNames out) image, content)]

/-- `file.lower().endswith(".jpg")`: the lower-cased characters end with
`.jpg` (an equality of the last four lower-cased characters; shorter names
compare unequal and yield `false`). -/
def isJpgName (s : String) : Bool :=
  decide ((s.data.map Char.toLower).drop
    ((s.data.map Char.toLower).length - 4) = ".jpg".data)

/-- The jpg images of one subfolder, in listing order. -/
def jpgImages (folder : List (String × α)) : List (String × α) :=
  folder.filter (fun f => isJpgName f.1)

/-- `combine_folders`: iterate over the immediate subfolders, copying every
jpg image into the output folder, resolving name collisions. -/
def combine_folders (subfolders : List (List (String × α)))
    (output : List (String × α)) : List (String × α) :=
  subfolders.foldl
    (fun out folder =>
      (jpgImages folder).foldl (fun o f => copyResolved o f.1 f.2) out)
    output

/-! ### Class-id counting (`count_id_in_lbls.py`, `count_class_ids`) -/

/-- Accumulating pass for Python `str.split()` with no argument: split on
whitespace runs, emitting no empty tokens.  `cur` is the current token,
reversed. -/
def pySplitAux : List Char → List Char → List String
  | [], cur => if cur = [] then [] else [String.mk cur.reverse]
  | c :: cs, cur =>
    if c.isWhitespace then
      (if cur = [] then pySplitAux cs []
       else String.mk cur.reverse :: pySplitAux cs [])
    else pySplitAux cs (c :: cur)

/-- Python `line.split()` with no argument. -/
def pySplit (line : String) : List String :=
  pySplitAux line.data []

/-- `class_counts[class_id] += 1` on a `Counter`, modelled as an association
list in first-seen order. -/
def bumpCount : List (String × Nat) → String → List (String × Nat)
  | [], c => [(c, 1)]
  | (k, v) :: rest, c =>
    if k = c then (k, v + 1) :: rest else (k, v) :: bumpCount rest c

/-- The count recorded for a class id (0 when absent). -/
def getCount : List (String × Nat) → String → Nat
  | [], _ => 0
  | (k, v) :: rest, c => if k = c then v else getCount rest c

/-- The body of the `for line in file:` loop of `count_class_ids`: take the
first whitespace-delimited token of the line (skipping blank lines, which
have no columns) and bump its counter. -/
def tallyStep (acc : List (String × Nat)) (line : String) :
    List (String × Nat) :=
  match pySplit line with
  | [] => acc
  | c :: _ => bumpCount acc c

/-- The two nested loops of `count_class_ids`, over every line of every
file.  A file is its list of lines. -/
def tallyLines (files : List (List String)) : List (String × Nat) :=
  files.flatten.foldl tallyStep []

/-- Decimal value of a digit list, most significant first. -/
def decimalValueAux : Nat → List Char → Nat
  | acc, [] => acc
  | acc, c :: cs => decimalValueAux (acc * 10 + (c.toNat - Char.toNat '0')) cs

/-- Whether `s` is a plain nonnegative decimal numeral — the label-file
class ids Python's `int(...)` accepts without raising. -/
def isDecimalNumeral (s : String) : Bool :=
  !s.data.isEmpty && s.data.all (fun c => c.isDigit)

/-- The sort key `int(x[0])` of `sorted(...)`, on a decimal-numeral class
id (on anything else Python's `int` raises; the theorems assume numerals
via `isDecimalNumeral`). -/
def numKey (s : String) : Nat :=
  decimalValueAux 0 s.data

/-- `sorted(class_counts.items(), key=lambda x: int(x[0]))`: the printed
table, as the sorted list of (class id, count) rows. -/
def count_class_ids (files : List (List String)) : List (String × Nat) :=
  (tallyLines files).mergeSort (fun a b => numKey a.1 ≤ numKey b.1)

/-- Lines of a list whose first token is `c`. -/
def occLines (lines : List String) (c : String) : Nat :=
  (lines.filter (fun line => (pySplit line).head? = some c)).length

/-- Lines across all files whose first token is `c`. -/
def occCount (files : List (List String)) (c : String) : Nat :=
  occLines files.flatten c

/-! ### Batching (`shuffle_datasets.py`, `shuffle_and_split_pairs`) -/

/-- `BATCH_SIZE = 500`. -/
def BATCH_SIZE : Nat := 500

/-- `shuffle_and_split_pairs` after the in-place `random.shuffle(pairs)`:
`total_batches = math.ceil(total_pairs / BATCH_SIZE)` and batch `i` is the
slice `pairs[i*BATCH_SIZE : min((i+1)*BATCH_SIZE, total_pairs)]`.  The
argument is the already-shuffled list; the theorems quantify over every
permutation of the input. -/
def shuffle_and_split_pairs (shuffled : List α) : List (List α) :=
  let totalPairs := shuffled.length
  let totalBatches := (totalPairs + BATCH_SIZE - 1) / BATCH_SIZE
  (List.range totalBatches).map (fun i =>
    let startIndex := i * BATCH_SIZE
    let endIndex := min (startIndex + BATCH_SIZE) totalPairs
    (shuffled.drop startIndex).take (endIndex - startIndex))

end VidPrep

namespace VidPrep

/-! ## Decimal representation lemmas -/

theorem natDigits_of_lt (n : Nat) (h : n < 10) :
    natDigits n = [Nat.digitChar n] := by
  rw [natDigits]
  exact dif_pos h

theorem natDigits_of_ge (n : Nat) (h : ¬ n < 10) :
    natDigits n = natDigits (n / 10) ++ [Nat.digitChar (n % 10)] := by
  rw [natDigits]
  exact dif_neg h

theorem toDigitsCore_eq_natDigits (fuel : Nat) :
    ∀ (n : Nat) (acc : List Char), n < fuel →
      Nat.toDigitsCore 10 fuel n acc = natDigits n ++ acc := by
  induction fuel with
  | zero => intro n acc h; omega
  | succ f ih =>
    intro n acc h
    show (if n / 10 = 0 then Nat.digitChar (n % 10) :: acc
          else Nat.toDigitsCore 10 f (n / 10) (Nat.digitChar (n % 10) :: acc))
        = natDigits n ++ acc
    by_cases h10 : n / 10 = 0
    · have hn : n < 10 := by omega
      rw [if_pos h10, natDigits_of_lt n hn, Nat.mod_eq_of_lt hn]
      rfl
    · have hn : ¬ n < 10 := by omega
      rw [if_neg h10, ih (n / 10) _ (by omega), natDigits_of_ge n hn,
        List.append_assoc]
      rfl

theorem repr_eq_natDigits (n : Nat) : Nat.repr n = String.mk (natDigits n) := by
  show (Nat.toDigits 10 n).asString = _
  rw [Nat.toDigits, toDigitsCore_eq_natDigits (n + 1) n [] (by omega),
    List.append_nil]
  rfl

theorem natDigits_ne_nil (n : Nat) : natDigits n ≠ [] := by
  by_cases h : n < 10
  · rw [natDigits_of_lt n h]; simp
  · rw [natDigits_of_ge n h]; simp

theorem digitChar_inj_lt :
    ∀ a < 10, ∀ b < 10, Nat.digitChar a = Nat.digitChar b → a = b := by
  decide

theorem natDigits_inj : ∀ (a b : Nat), natDigits a = natDigits b → a = b := by
  intro a
  induction a using Nat.strong_induction_on with
  | _ a ih =>
    intro b h
    by_cases ha : a < 10 <;> by_cases hb : b < 10
    · rw [natDigits_of_lt a ha, natDigits_of_lt b hb] at h
      exact digitChar_inj_lt a ha b hb (List.singleton_inj.mp h)
    · rw [natDigits_of_lt a ha, natDigits_of_ge b hb] at h
      have hlen := congrArg List.length h
      have hpos := List.length_pos.mpr (natDigits_ne_nil (b / 10))
      rw [List.length_singleton, List.length_append, List.length_singleton] at hlen
      omega
    · rw [natDigits_of_ge a ha, natDigits_of_lt b hb] at h
      have hlen := congrArg List.length h
      have hpos := List.length_pos.mpr (natDigits_ne_nil (a / 10))
      rw [List.length_singleton, List.length_append, List.length_singleton] at hlen
      omega
    · rw [natDigits_of_ge a ha, natDigits_of_ge b hb] at h
      obtain ⟨h1, h2⟩ := List.append_inj' h (by simp)
      have hdiv : a / 10 = b / 10 :=
        ih (a / 10) (Nat.div_lt_self (by omega) (by omega)) _ h1
      have hmod : a % 10 = b % 10 :=
        digitChar_inj_lt _ (Nat.mod_lt a (by omega)) _ (Nat.mod_lt b (by omega))
          (List.singleton_inj.mp h2)
      omega

theorem repr_inj : ∀ (a b : Nat), Nat.repr a = Nat.repr b → a = b := by
  intro a b h
  rw [repr_eq_natDigits, repr_eq_natDigits] at h
  exact natDigits_inj a b (congrArg String.data h)

theorem repr_length_pos (n : Nat) : 0 < (Nat.repr n).length := by
  rw [repr_eq_natDigits]
  have : (String.mk (natDigits n)).length = (natDigits n).length := rfl
  rw [this]
  exact List.length_pos.mpr (natDigits_ne_nil n)

/-! ## Frame-extraction lemmas -/

theorem extractLoop_cons_mod (base : String) (n : Nat) (f : α) (rest : List α)
    (c s : Nat) (hc : c % n = 0) :
    extractLoop base n (f :: rest) c s
      = { ordinal := c, saveIdx := s, filename := frameFilename base s,
          frame := f } :: extractLoop base n rest (c + 1) (s + 1) := by
  simp [extractLoop, hc]

theorem extractLoop_cons_nmod (base : String) (n : Nat) (f : α) (rest : List α)
    (c s : Nat) (hc : ¬ c % n = 0) :
    extractLoop base n (f :: rest) c s = extractLoop base n rest (c + 1) s := by
  simp [extractLoop, hc]

theorem extractLoop_map_ordinal (base : String) (n : Nat) (frames : List α) :
    ∀ (c s : Nat),
      (extractLoop base n frames c s).map (fun e => e.ordinal)
        = ((List.range frames.length).map (fun i => i + c)).filter
            (fun i => i % n == 0) := by
  induction frames with
  | nil => intro c s; rfl
  | cons f rest ih =>
    intro c s
    have hr : (List.range (f :: rest).length).map (fun i => i + c)
        = c :: (List.range rest.length).map (fun i => i + (c + 1)) := by
      rw [List.length_cons, List.range_succ_eq_map, List.map_cons, List.map_map]
      have hfun : ((fun i => i + c) ∘ Nat.succ) = fun i => i + (c + 1) := by
        funext i
        simp only [Function.comp_apply]
        omega
      rw [hfun, Nat.zero_add]
    rw [hr]
    by_cases hc : c % n = 0
    · rw [extractLoop_cons_mod base n f rest c s hc, List.map_cons,
        List.filter_cons_of_pos (by simpa using hc)]
      rw [ih (c + 1) (s + 1)]
    · rw [extractLoop_cons_nmod base n f rest c s hc,
        List.filter_cons_of_neg (by simpa using hc)]
      exact ih (c + 1) s

theorem range_filter_mod (n : Nat) (hn : 1 ≤ n) :
    ∀ (L : Nat), (List.range L).filter (fun i => i % n == 0)
      = (List.range ((L + n - 1) / n)).map (fun j => j * n) := by
  intro L
  induction L with
  | zero =>
    have h0 : (0 + n - 1) / n = 0 := Nat.div_eq_of_lt (by omega)
    rw [h0]
    rfl
  | succ L ih =>
    have hsucc : (L + 1 + n - 1) / n
        = (L + n - 1) / n + if n ∣ L then 1 else 0 := by
      have h1 : L + 1 + n - 1 = (L + n - 1) + 1 := by omega
      rw [h1, Nat.succ_div]
      congr 1
      have h2 : L + n - 1 + 1 = L + n := by omega
      rw [h2]
      simp [Nat.dvd_add_self_right]
    rw [List.range_succ, List.filter_append, ih, hsucc]
    by_cases hd : n ∣ L
    · rw [if_pos hd]
      obtain ⟨q, rfl⟩ := hd
      have hm : (n * q + n - 1) / n = q := by
        have he : n * q + n - 1 = n - 1 + n * q := by omega
        rw [he, Nat.add_mul_div_left _ _ (by omega : 0 < n),
          Nat.div_eq_of_lt (by omega : n - 1 < n), Nat.zero_add]
      rw [hm, List.range_succ, List.map_append]
      simp [Nat.mul_mod_right, Nat.mul_comm]
    · have hmod : ¬ L % n = 0 := fun h => hd (Nat.dvd_of_mod_eq_zero h)
      rw [if_neg hd, Nat.add_zero]
      simp [hmod]

theorem pad5_length_of_lt (k : Nat) (h : k < 100000) : (pad5 k).length = 5 := by
  have h5 : k < 10 ^ 5 := by norm_num; omega
  have hle : (Nat.repr k).length ≤ 5 := Nat.repr_length k 5 (by omega) h5
  have hpos := repr_length_pos k
  have hmk : (String.mk (List.replicate (5 - (Nat.repr k).length) '0')).length
      = 5 - (Nat.repr k).length := by
    show (List.replicate (5 - (Nat.repr k).length) '0').length = _
    exact List.length_replicate _ _
  rw [pad5, String.length_append, hmk]
  omega

theorem extractLoop_map_saveIdx (base : String) (n : Nat) (frames : List α) :
    ∀ (c s : Nat),
      (extractLoop base n frames c s).map (fun e => e.saveIdx)
        = List.range' s (extractLoop base n frames c s).length := by
  induction frames with
  | nil => intro c s; rfl
  | cons f rest ih =>
    intro c s
    by_cases hc : c % n = 0
    · rw [extractLoop_cons_mod base n f rest c s hc, List.map_cons,
        List.length_cons, List.range'_succ, ih (c + 1) (s + 1)]
    · rw [extractLoop_cons_nmod base n f rest c s hc]
      exact ih (c + 1) s

theorem extractLoop_filename (base : String) (n : Nat) (frames : List α) :
    ∀ (c s : Nat) (e : SavedFrame α), e ∈ extractLoop base n frames c s →
      e.filename = frameFilename base e.saveIdx := by
  induction frames with
  | nil => intro c s e he; simp [extractLoop] at he
  | cons f rest ih =>
    intro c s e he
    by_cases hc : c % n = 0
    · rw [extractLoop_cons_mod base n f rest c s hc] at he
      rcases List.mem_cons.mp he with h | h
      · rw [h]
      · exact ih (c + 1) (s + 1) e h
    · rw [extractLoop_cons_nmod base n f rest c s hc] at he
      exact ih (c + 1) s e he

theorem extractVideoFrames_map_ordinal (base : String) (n : Nat)
    (hn : 1 ≤ n) (frames : List α) :
    (extractVideoFrames base n frames).map (fun e => e.ordinal)
      = (List.range ((frames.length + n - 1) / n)).map (fun j => j * n) := by
  rw [extractVideoFrames, extractLoop_map_ordinal base n frames 0 0,
    ← range_filter_mod n hn frames.length]
  congr 1
  have hfun : (fun i => i + 0) = fun i : Nat => i := by
    funext i
    omega
  rw [hfun]
  simp

theorem extractVideoFrames_length (base : String) (n : Nat)
    (hn : 1 ≤ n) (frames : List α) :
    (extractVideoFrames base n frames).length
      = (frames.length + n - 1) / n := by
  have h := congrArg List.length (extractVideoFrames_map_ordinal base n hn frames)
  simpa using h

/-- `(L + n - 1) / n` is the ceiling of the exact division `L / n`. -/
theorem ceil_div_eq (L n : Nat) (hn : 1 ≤ n) :
    ⌈(L : ℚ) / (n : ℚ)⌉₊ = (L + n - 1) / n := by
  rcases Nat.eq_zero_or_pos L with hL | hL
  · subst hL
    rw [Nat.div_eq_of_lt (by omega : 0 + n - 1 < n)]
    simp
  · have hn0 : (0 : ℚ) < (n : ℚ) := by exact_mod_cast (by omega : 0 < n)
    have hm1 : 1 ≤ (L + n - 1) / n := by
      rw [Nat.le_div_iff_mul_le (by omega : 0 < n)]
      omega
    rw [Nat.ceil_eq_iff (by omega : (L + n - 1) / n ≠ 0)]
    have hdm := Nat.div_add_mod (L + n - 1) n
    have hmodlt := Nat.mod_lt (L + n - 1) (by omega : 0 < n)
    have hup : n * ((L + n - 1) / n) ≤ L + n - 1 := Nat.mul_div_le _ n
    constructor
    · rw [lt_div_iff₀ hn0]
      have hnat : ((L + n - 1) / n - 1) * n < L := by
        have e1 : ((L + n - 1) / n - 1) * n = (L + n - 1) / n * n - n := by
          rw [Nat.sub_mul, Nat.one_mul]
        have e2 : (L + n - 1) / n * n = n * ((L + n - 1) / n) :=
          Nat.mul_comm _ _
        rw [e1, e2]
        omega
      calc ((((L + n - 1) / n - 1) : Nat) : ℚ) * (n : ℚ)
          = ((((L + n - 1) / n - 1) * n : Nat) : ℚ) := by push_cast; ring
        _ < (L : ℚ) := by exact_mod_cast hnat
    · rw [div_le_iff₀ hn0]
      have hnat : L ≤ (L + n - 1) / n * n := by
        rw [Nat.mul_comm]
        omega
      calc (L : ℚ) ≤ (((L + n - 1) / n * n : Nat) : ℚ) := by exact_mod_cast hnat
        _ = (((L + n - 1) / n : Nat) : ℚ) * (n : ℚ) := by push_cast; ring

theorem extractVideoFrames_get_saveIdx (base : String) (n : Nat)
    (frames : List α) (j : Nat)
    (h : j < (extractVideoFrames base n frames).length) :
    ((extractVideoFrames base n frames).get ⟨j, h⟩).saveIdx = j := by
  have hm : (extractVideoFrames base n frames).map (fun e => e.saveIdx)
      = List.range' 0 (extractVideoFrames base n frames).length :=
    extractLoop_map_saveIdx base n frames 0 0
  have h2 : j < ((extractVideoFrames base n frames).map
      (fun e => e.saveIdx)).length := by simpa using h
  rw [List.get_eq_getElem, ← List.getElem_map (fun e : SavedFrame α => e.saveIdx),
    List.getElem_of_eq hm h2]
  simp

theorem extractVideoFrames_get_ordinal (base : String) (n : Nat) (hn : 1 ≤ n)
    (frames : List α) (j : Nat)
    (h : j < (extractVideoFrames base n frames).length) :
    ((extractVideoFrames base n frames).get ⟨j, h⟩).ordinal = j * n := by
  have hm := extractVideoFrames_map_ordinal base n hn frames
  have h2 : j < ((extractVideoFrames base n frames).map
      (fun e => e.ordinal)).length := by simpa using h
  rw [List.get_eq_getElem, ← List.getElem_map (fun e : SavedFrame α => e.ordinal),
    List.getElem_of_eq hm h2]
  simp

/-- C1.  For every sampling interval `N ≥ 1` and a video from which `L`
frames are successfully decoded, `extract_frames` saves exactly `⌈L/N⌉`
frames for that video, namely the frames whose zero-based ordinal index is a
multiple of `N` (indices `0, N, 2N, …`). -/
theorem c1_extract_count_and_indices (base : String) (n : Nat) (hn : 1 ≤ n)
    (frames : List α) :
    (extractVideoFrames base n frames).length
        = ⌈(frames.length : ℚ) / (n : ℚ)⌉₊
    ∧ (extractVideoFrames base n frames).map (fun e => e.ordinal)
        = (List.range ⌈(frames.length : ℚ) / (n : ℚ)⌉₊).map (fun j => j * n) := by
  rw [ceil_div_eq frames.length n hn]
  exact ⟨extractVideoFrames_length base n hn frames,
    extractVideoFrames_map_ordinal base n hn frames⟩

/-- Witness for C1: a 101-frame video at interval 10 yields the 11 saved
ordinals `0, 10, …, 100`. -/
theorem c1_extract_count_and_indices_witness :
    (extractVideoFrames "v" 10 (List.range 101)).length
        = ⌈(((List.range 101).length : Nat) : ℚ) / ((10 : Nat) : ℚ)⌉₊
    ∧ (extractVideoFrames "v" 10 (List.range 101)).map (fun e => e.ordinal)
        = (List.range ⌈(((List.range 101).length : Nat) : ℚ)
            / ((10 : Nat) : ℚ)⌉₊).map (fun j => j * 10) :=
  c1_extract_count_and_indices "v" 10 (by decide) (List.range 101)

/-- C5.  Every frame saved by `extract_frames` is written under the name
`<video-base>_frame_<counter>.jpg` where the counter is the 5-digit
zero-padded save counter: the `j`-th saved frame (counting from 0) has
counter exactly `j` (the counter starts at 0 and increments by one only when
a frame is saved), its name is `base ++ "_frame_" ++ pad5 j ++ ".jpg"`, the
padded counter has exactly 5 digits whenever `j < 100000`, and the frame's
ordinal index in the video is `j * N`, not `j`. -/
theorem c5_saved_frame_names (base : String) (n : Nat) (hn : 1 ≤ n)
    (frames : List α) (j : Nat)
    (h : j < (extractVideoFrames base n frames).length) :
    ((extractVideoFrames base n frames).get ⟨j, h⟩).filename
        = base ++ "_frame_" ++ pad5 j ++ ".jpg"
    ∧ ((extractVideoFrames base n frames).get ⟨j, h⟩).saveIdx = j
    ∧ ((extractVideoFrames base n frames).get ⟨j, h⟩).ordinal = j * n
    ∧ (j < 100000 → (pad5 j).length = 5) := by
  have hs := extractVideoFrames_get_saveIdx base n frames j h
  refine ⟨?_, hs, extractVideoFrames_get_ordinal base n hn frames j h,
    fun hj => pad5_length_of_lt j hj⟩
  have hf := extractLoop_filename base n frames 0 0
    ((extractVideoFrames base n frames).get ⟨j, h⟩)
    (List.get_mem (extractVideoFrames base n frames) j h)
  rw [hf, hs, frameFilename]

/-- Witness for C5: the second saved frame (`j = 1`) of a 3-frame video at
interval 2 is `v_frame_00001.jpg`, of ordinal index 2. -/
theorem c5_saved_frame_names_witness :
    ((extractVideoFrames "v" 2 [10, 20, 30]).get ⟨1, by decide⟩).filename
        = "v" ++ "_frame_" ++ pad5 1 ++ ".jpg"
    ∧ ((extractVideoFrames "v" 2 [10, 20, 30]).get ⟨1, by decide⟩).saveIdx = 1
    ∧ ((extractVideoFrames "v" 2 [10, 20, 30]).get ⟨1, by decide⟩).ordinal = 1 * 2
    ∧ (1 < 100000 → (pad5 1).length = 5) :=
  c5_saved_frame_names "v" 2 (by decide) [10, 20, 30] 1 (by decide)

/-! ## `ProcessingStats` lemmas -/

theorem setVideoEntry_of_not_mem :
    ∀ (l : List (String × Nat × Nat)) (name : String) (t e : Nat),
      name ∉ l.map (fun en => en.1) →
      setVideoEntry l name t e = l ++ [(name, t, e)] := by
  intro l
  induction l with
  | nil => intro name t e _; rfl
  | cons hd tl ih =>
    intro name t e hmem
    obtain ⟨hd1, hd2⟩ := hd
    have hne : hd1 ≠ name := by
      intro hcontra
      exact hmem (by simp [hcontra])
    rw [setVideoEntry, if_neg hne,
      ih name t e (fun h => hmem (List.mem_cons_of_mem hd1 h))]
    rfl

theorem runUpdates_video_stats :
    ∀ (calls : List (String × Nat × Nat)) (s : ProcessingStats),
      (∀ c ∈ calls, c.1 ∉ s.video_stats.map (fun en => en.1)) →
      (calls.map (fun c => c.1)).Nodup →
      (runUpdates s calls).video_stats = s.video_stats ++ calls := by
  intro calls
  induction calls with
  | nil => intro s _ _; simp [runUpdates]
  | cons c cs ih =>
    intro s hfresh hnd
    have hstep : (update_video_stats s c.1 c.2.1 c.2.2).video_stats
        = s.video_stats ++ [c] := by
      rw [update_video_stats]
      exact setVideoEntry_of_not_mem s.video_stats c.1 c.2.1 c.2.2
        (hfresh c (List.mem_cons_self c cs))
    have hfresh2 : ∀ d ∈ cs,
        d.1 ∉ (update_video_stats s c.1 c.2.1 c.2.2).video_stats.map
          (fun en => en.1) := by
      intro d hd
      rw [hstep, List.map_append]
      simp only [List.mem_append]
      rintro (h | h)
      · exact hfresh d (List.mem_cons_of_mem c hd) h
      · simp at h
        have hc1 : c.1 ∉ cs.map (fun x => x.1) := (List.nodup_cons.mp hnd).1
        exact hc1 (h ▸ List.mem_map_of_mem (fun x => x.1) hd)
    have hrest := ih (update_video_stats s c.1 c.2.1 c.2.2) hfresh2
      (List.nodup_cons.mp hnd).2
    calc (runUpdates s (c :: cs)).video_stats
        = (runUpdates (update_video_stats s c.1 c.2.1 c.2.2) cs).video_stats :=
          rfl
      _ = (update_video_stats s c.1 c.2.1 c.2.2).video_stats ++ cs := hrest
      _ = s.video_stats ++ (c :: cs) := by rw [hstep]; simp

theorem runUpdates_counters :
    ∀ (calls : List (String × Nat × Nat)) (s : ProcessingStats),
      (runUpdates s calls).total_frames
          = s.total_frames + (calls.map (fun c => c.2.1)).sum
      ∧ (runUpdates s calls).extracted_frames
          = s.extracted_frames + (calls.map (fun c => c.2.2)).sum
      ∧ (runUpdates s calls).processed_videos
          = s.processed_videos + calls.length := by
  intro calls
  induction calls with
  | nil => intro s; simp [runUpdates]
  | cons c cs ih =>
    intro s
    have hstep := ih (update_video_stats s c.1 c.2.1 c.2.2)
    refine ⟨?_, ?_, ?_⟩
    · rw [show (runUpdates s (c :: cs)).total_frames
          = (runUpdates (update_video_stats s c.1 c.2.1 c.2.2) cs).total_frames
          from rfl, hstep.1]
      simp [update_video_stats]
      omega
    · rw [show (runUpdates s (c :: cs)).extracted_frames
          = (runUpdates (update_video_stats s c.1 c.2.1 c.2.2)
              cs).extracted_frames
          from rfl, hstep.2.1]
      simp [update_video_stats]
      omega
    · rw [show (runUpdates s (c :: cs)).processed_videos
          = (runUpdates (update_video_stats s c.1 c.2.1 c.2.2)
              cs).processed_videos
          from rfl, hstep.2.2]
      simp [update_video_stats]
      omega

/-- C9.  `ProcessingStats` keeps the aggregate-consistency invariant:
provided every `update_video_stats` call uses a video name not recorded
before, then after any sequence of calls `total_frames` is the sum of the
per-video `frames` entries, `extracted_frames` is the sum of the per-video
`extracted` entries, and `processed_videos` is the number of entries. -/
theorem c9_stats_aggregate_invariant (calls : List (String × Nat × Nat))
    (hnd : (calls.map (fun c => c.1)).Nodup) :
    (runUpdates initialStats calls).total_frames
        = ((runUpdates initialStats calls).video_stats.map
            (fun en => en.2.1)).sum
    ∧ (runUpdates initialStats calls).extracted_frames
        = ((runUpdates initialStats calls).video_stats.map
            (fun en => en.2.2)).sum
    ∧ (runUpdates initialStats calls).processed_videos
        = (runUpdates initialStats calls).video_stats.length := by
  have hvs : (runUpdates initialStats calls).video_stats = calls := by
    have h0 := runUpdates_video_stats calls initialStats
      (by intro c _ h; simp [initialStats] at h) hnd
    simpa [initialStats] using h0
  have hc := runUpdates_counters calls initialStats
  rw [hvs]
  refine ⟨?_, ?_, ?_⟩
  · rw [hc.1]; simp [initialStats]
  · rw [hc.2.1]; simp [initialStats]
  · rw [hc.2.2]; simp [initialStats]

/-- Witness for C9 at a concrete two-call sequence. -/
theorem c9_stats_aggregate_invariant_witness :
    (runUpdates initialStats [("a.mp4", 3, 1), ("b.mp4", 5, 2)]).total_frames
        = ((runUpdates initialStats
            [("a.mp4", 3, 1), ("b.mp4", 5, 2)]).video_stats.map
              (fun en => en.2.1)).sum
    ∧ (runUpdates initialStats
          [("a.mp4", 3, 1), ("b.mp4", 5, 2)]).extracted_frames
        = ((runUpdates initialStats
            [("a.mp4", 3, 1), ("b.mp4", 5, 2)]).video_stats.map
              (fun en => en.2.2)).sum
    ∧ (runUpdates initialStats
          [("a.mp4", 3, 1), ("b.mp4", 5, 2)]).processed_videos
        = (runUpdates initialStats
            [("a.mp4", 3, 1), ("b.mp4", 5, 2)]).video_stats.length :=
  c9_stats_aggregate_invariant [("a.mp4", 3, 1), ("b.mp4", 5, 2)] (by decide)

/-! ## `extract_frames` over a batch of videos -/

theorem foldl_processOneVideo_eq_runUpdates (n : Nat) :
    ∀ (videos : List (Video α)) (s : ProcessingStats),
      videos.foldl (processOneVideo n) s
        = runUpdates s (videos.map (fun v =>
            (v.name,
             (if v.opensOk then v.reportedTotal else 0),
             (extractVideoFrames (pySplitext v.name).1 n
               (if v.opensOk then v.frames else [])).length))) := by
  intro videos
  induction videos with
  | nil => intro s; rfl
  | cons v vs ih => intro s; exact ih (processOneVideo n s v)

/-- C3 (amended).  A video that the decoder cannot open contributes no
decoded frames; the batch is not aborted and processing continues with the
next video.  However `update_video_stats` is called exactly once per
discovered video — unopenable ones included, recorded with 0 total and 0
extracted frames — so `processed_videos` counts every discovered video and
the per-video table lists every discovered video in processing order. -/
theorem c3_failed_open_recorded (videos : List (Video α)) (n : Nat)
    (hn : 1 ≤ n) (hnd : (videos.map (fun v => v.name)).Nodup) :
    (extract_frames videos n).processed_videos = videos.length
    ∧ (extract_frames videos n).video_stats
        = videos.map (fun v =>
            (v.name,
             (if v.opensOk then v.reportedTotal else 0),
             (if v.opensOk then (v.frames.length + n - 1) / n else 0))) := by
  have hmapeq : videos.map (fun v =>
        (v.name,
         (if v.opensOk then v.reportedTotal else 0),
         (extractVideoFrames (pySplitext v.name).1 n
           (if v.opensOk then v.frames else [])).length))
      = videos.map (fun v =>
          (v.name,
           (if v.opensOk then v.reportedTotal else 0),
           (if v.opensOk then (v.frames.length + n - 1) / n else 0))) := by
    apply List.map_congr_left
    intro v _
    by_cases hv : v.opensOk
    · simp only [hv, if_true]
      rw [extractVideoFrames_length (pySplitext v.name).1 n hn v.frames]
    · simp only [hv, if_false]
      rfl
  have heq := foldl_processOneVideo_eq_runUpdates n videos
    { initialStats with total_videos := videos.length }
  have hfold : extract_frames videos n
      = runUpdates { initialStats with total_videos := videos.length }
          (videos.map (fun v =>
            (v.name,
             (if v.opensOk then v.reportedTotal else 0),
             (extractVideoFrames (pySplitext v.name).1 n
               (if v.opensOk then v.frames else [])).length))) := heq
  constructor
  · rw [hfold, (runUpdates_counters _ _).2.2]
    simp [initialStats]
  · rw [hfold, runUpdates_video_stats _ _
      (by intro c _ h; simp [initialStats] at h)
      (by rw [hmapeq]; simpa [Function.comp] using hnd), hmapeq]
    simp [initialStats]

/-- Witness for C3 (amended): a batch of an unopenable video followed by a
good one is fully processed, the unopenable video recorded as `(0, 0)`. -/
theorem c3_failed_open_recorded_witness :
    (extract_frames (α := Nat)
        [{ name := "bad.mp4", opensOk := false, reportedTotal := 300,
           frames := [] },
         { name := "ok.avi", opensOk := true, reportedTotal := 5,
           frames := [1, 2, 3, 4, 5] }] 2).processed_videos = 2
    ∧ (extract_frames (α := Nat)
        [{ name := "bad.mp4", opensOk := false, reportedTotal := 300,
           frames := [] },
         { name := "ok.avi", opensOk := true, reportedTotal := 5,
           frames := [1, 2, 3, 4, 5] }] 2).video_stats
        = [("bad.mp4", 0, 0), ("ok.avi", 5, 3)] := by
  have h := c3_failed_open_recorded (α := Nat)
    [{ name := "bad.mp4", opensOk := false, reportedTotal := 300,
       frames := [] },
     { name := "ok.avi", opensOk := true, reportedTotal := 5,
       frames := [1, 2, 3, 4, 5] }] 2 (by decide) (by decide)
  exact ⟨h.1, by rw [h.2]; rfl⟩

/-- Counterexample to C3 as stated: for a batch consisting of one video the
decoder cannot open, `update_video_stats` is nevertheless executed (the
video-stats table gains an entry for it and `processed_videos` becomes 1),
although zero videos were successfully processed — so `recordVideo` is not
called only for successfully processed videos. -/
theorem c3_counterexample :
    (Video.mk "bad.mp4" false 300 ([] : List Nat)).opensOk = false
    ∧ (extract_frames (α := Nat)
        [{ name := "bad.mp4", opensOk := false, reportedTotal := 300,
           frames := [] }] 1).processed_videos = 1
    ∧ (extract_frames (α := Nat)
        [{ name := "bad.mp4", opensOk := false, reportedTotal := 300,
           frames := [] }] 1).video_stats = [("bad.mp4", 0, 0)] := by
  refine ⟨rfl, rfl, rfl⟩

/-! ## `process_folder` lemmas -/

theorem sampleTake_valid : ValidSampler sampleTake := by
  intro l m hnd hm
  refine ⟨?_, (List.take_sublist m l).nodup hnd, ?_⟩
  · rw [sampleTake, List.length_take]
    omega
  · intro x hx
    exact List.mem_of_mem_take hx

theorem length_filter_mem (l s : List String) (hl : l.Nodup) (hs : s.Nodup)
    (hsub : ∀ x ∈ s, x ∈ l) :
    (l.filter (fun f => f ∈ s)).length = s.length := by
  have hperm : (l.filter (fun f => f ∈ s)).Perm s := by
    rw [List.perm_ext_iff_of_nodup (hl.filter _) hs]
    intro a
    simp only [List.mem_filter, decide_eq_true_eq]
    exact ⟨fun h => h.2, fun h => ⟨hsub a h, h⟩⟩
  exact hperm.length_eq

theorem length_filter_mem_split (l s : List String) :
    (l.filter (fun f => f ∈ s)).length
      + (l.filter (fun f => f ∉ s)).length = l.length := by
  have hperm := List.filter_append_perm (fun f => decide (f ∈ s)) l
  have hlen := hperm.length_eq
  rw [List.length_append] at hlen
  have hneg : l.filter (fun x => !decide (x ∈ s))
      = l.filter (fun f => f ∉ s) := by
    apply List.filter_congr
    intro x _
    simp [decide_not]
  rw [hneg] at hlen
  exact hlen

theorem process_folder_spec (sample : List String → Nat → List String)
    (hs : ValidSampler sample) (frames : List String) (hnd : frames.Nodup)
    (k : ℚ) (hk0 : 0 ≤ k) (hk1 : k ≤ 1) :
    ∃ r, process_folder sample frames k = some r
      ∧ r.total_frames = frames.length
      ∧ r.frames_to_keep = ⌊(frames.length : ℚ) * k⌋₊
      ∧ r.remaining.length = ⌊(frames.length : ℚ) * k⌋₊
      ∧ r.removed_count = frames.length - ⌊(frames.length : ℚ) * k⌋₊
      ∧ r.remaining.Nodup := by
  by_cases hF0 : frames.length = 0
  · obtain rfl : frames = [] := List.length_eq_zero.mp hF0
    refine ⟨⟨0, 0, 0, []⟩, rfl, rfl, ?_, ?_, ?_, List.nodup_nil⟩
    · simp
    · simp
    · simp
  · have hq0 : (0 : ℚ) ≤ (frames.length : ℚ) * k :=
      mul_nonneg (by positivity) hk0
    have hpy : pyInt ((frames.length : ℚ) * k) = ⌊(frames.length : ℚ) * k⌋ := by
      rw [pyInt, if_neg (not_lt.mpr hq0)]
    have hzle : ⌊(frames.length : ℚ) * k⌋ ≤ (frames.length : ℤ) := by
      have hle : (frames.length : ℚ) * k ≤ (frames.length : ℚ) := by
        calc (frames.length : ℚ) * k ≤ (frames.length : ℚ) * 1 :=
              mul_le_mul_of_nonneg_left hk1 (by positivity)
          _ = (frames.length : ℚ) := mul_one _
      calc ⌊(frames.length : ℚ) * k⌋ ≤ ⌊(frames.length : ℚ)⌋ :=
            Int.floor_le_floor hle
        _ = (frames.length : ℤ) := Int.floor_natCast _
    have hz0 : 0 ≤ ⌊(frames.length : ℚ) * k⌋ := Int.floor_nonneg.mpr hq0
    have htoNat : (⌊(frames.length : ℚ) * k⌋).toNat
        = ⌊(frames.length : ℚ) * k⌋₊ := Int.floor_toNat _
    have hmle : ⌊(frames.length : ℚ) * k⌋₊ ≤ frames.length := by
      rw [← htoNat]
      omega
    obtain ⟨hklen, hknd, hksub⟩ :=
      hs frames ⌊(frames.length : ℚ) * k⌋₊ hnd hmle
    have hguard : ¬ (pyInt ((frames.length : ℚ) * k) < 0
        ∨ (frames.length : ℤ) < pyInt ((frames.length : ℚ) * k)) := by
      rw [hpy]
      push_neg
      exact ⟨hz0, hzle⟩
    have heq : process_folder sample frames k
        = some ⟨frames.length,
                (pyInt ((frames.length : ℚ) * k)).toNat,
                (frames.filter (fun f =>
                  f ∉ sample frames
                    (pyInt ((frames.length : ℚ) * k)).toNat)).length,
                frames.filter (fun f =>
                  f ∈ sample frames
                    (pyInt ((frames.length : ℚ) * k)).toNat)⟩ := by
      simp only [process_folder]
      rw [if_neg hF0, if_neg hguard]
    refine ⟨_, heq, rfl, ?_, ?_, ?_, hnd.filter _⟩
    · show (pyInt ((frames.length : ℚ) * k)).toNat = _
      rw [hpy, htoNat]
    · show (frames.filter (fun f =>
          f ∈ sample frames (pyInt ((frames.length : ℚ) * k)).toNat)).length = _
      rw [hpy, htoNat, length_filter_mem frames _ hnd hknd hksub, hklen]
    · show (frames.filter (fun f =>
          f ∉ sample frames (pyInt ((frames.length : ℚ) * k)).toNat)).length = _
      rw [hpy, htoNat]
      have hsplit := length_filter_mem_split frames
        (sample frames ⌊(frames.length : ℚ) * k⌋₊)
      rw [length_filter_mem frames _ hnd hknd hksub, hklen] at hsplit
      omega

/-- C2.  For every folder containing `F ≥ 1` image files and keep-fraction
`k ∈ [0,1]`, one run of `process_folder` keeps exactly `⌊F·k⌋` files (the
kept set being any set `random.sample` can return: `⌊F·k⌋` distinct files of
the folder) and deletes every file not selected, i.e. `F − ⌊F·k⌋` files. -/
theorem c2_subsample_counts (sample : List String → Nat → List String)
    (hs : ValidSampler sample) (frames : List String) (hnd : frames.Nodup)
    (_hF : 1 ≤ frames.length) (k : ℚ) (hk0 : 0 ≤ k) (hk1 : k ≤ 1) :
    ∃ r, process_folder sample frames k = some r
      ∧ r.total_frames = frames.length
      ∧ r.frames_to_keep = ⌊(frames.length : ℚ) * k⌋₊
      ∧ r.remaining.length = ⌊(frames.length : ℚ) * k⌋₊
      ∧ r.removed_count = frames.length - ⌊(frames.length : ℚ) * k⌋₊ := by
  obtain ⟨r, h1, h2, h3, h4, h5, _⟩ :=
    process_folder_spec sample hs frames hnd k hk0 hk1
  exact ⟨r, h1, h2, h3, h4, h5⟩

/-- Witness for C2: ten files at keep-fraction 4/5. -/
theorem c2_subsample_counts_witness :
    ∃ r, process_folder sampleTake
        ["a", "b", "c", "d", "e", "f", "g", "h", "i", "j"] (4 / 5) = some r
      ∧ r.total_frames
          = (["a", "b", "c", "d", "e", "f", "g", "h", "i", "j"] :
              List String).length
      ∧ r.frames_to_keep
          = ⌊(((["a", "b", "c", "d", "e", "f", "g", "h", "i", "j"] :
              List String).length : Nat) : ℚ) * (4 / 5)⌋₊
      ∧ r.remaining.length
          = ⌊(((["a", "b", "c", "d", "e", "f", "g", "h", "i", "j"] :
              List String).length : Nat) : ℚ) * (4 / 5)⌋₊
      ∧ r.removed_count
          = (["a", "b", "c", "d", "e", "f", "g", "h", "i", "j"] :
              List String).length
            - ⌊(((["a", "b", "c", "d", "e", "f", "g", "h", "i", "j"] :
              List String).length : Nat) : ℚ) * (4 / 5)⌋₊ := by
  exact c2_subsample_counts sampleTake sampleTake_valid
    ["a", "b", "c", "d", "e", "f", "g", "h", "i", "j"] (by decide) (by decide)
    (4 / 5) (by norm_num) (by norm_num)

/-- C4.  Random subsampling is idempotent in count: running `process_folder`
a second time on the folder left by the first run (no intervening filesystem
changes) keeps exactly `⌊kept·k⌋` files, where `kept = ⌊F·k⌋` is the count
kept by the first run. -/
theorem c4_idempotent_in_count (sample : List String → Nat → List String)
    (hs : ValidSampler sample) (frames : List String) (hnd : frames.Nodup)
    (k : ℚ) (hk0 : 0 ≤ k) (hk1 : k ≤ 1) :
    ∃ r1 r2, process_folder sample frames k = some r1
      ∧ process_folder sample r1.remaining k = some r2
      ∧ r1.remaining.length = ⌊(frames.length : ℚ) * k⌋₊
      ∧ r2.remaining.length = ⌊(r1.remaining.length : ℚ) * k⌋₊ := by
  obtain ⟨r1, h1, _, _, hrem1, _, hnd1⟩ :=
    process_folder_spec sample hs frames hnd k hk0 hk1
  obtain ⟨r2, h2, _, _, hrem2, _, _⟩ :=
    process_folder_spec sample hs r1.remaining hnd1 k hk0 hk1
  exact ⟨r1, r2, h1, h2, hrem1, hrem2⟩

/-- Witness for C4 at ten concrete files and keep-fraction 4/5. -/
theorem c4_idempotent_in_count_witness :
    ∃ r1 r2, process_folder sampleTake
        ["a", "b", "c", "d", "e", "f", "g", "h", "i", "j"] (4 / 5) = some r1
      ∧ process_folder sampleTake r1.remaining (4 / 5) = some r2
      ∧ r1.remaining.length
          = ⌊(((["a", "b", "c", "d", "e", "f", "g", "h", "i", "j"] :
              List String).length : Nat) : ℚ) * (4 / 5)⌋₊
      ∧ r2.remaining.length = ⌊(r1.remaining.length : ℚ) * (4 / 5)⌋₊ :=
  c4_idempotent_in_count sampleTake sampleTake_valid
    ["a", "b", "c", "d", "e", "f", "g", "h", "i", "j"] (by decide)
    (4 / 5) (by norm_num) (by norm_num)

/-- C10 (amended).  For `keep_percentage = k > 1` on a folder of `F ≥ 1`
files: when `⌊F·k⌋ > F` the `random.sample` call raises `ValueError` before
any deletion task is built, so no file is deleted; when `⌊F·k⌋ = F` (e.g.
`F = 1`, `k = 3/2`) no exception is raised and still no file is deleted —
in either case the folder is left unchanged. -/
theorem c10_keep_above_one (sample : List String → Nat → List String)
    (hs : ValidSampler sample) (frames : List String) (hnd : frames.Nodup)
    (hF : 1 ≤ frames.length) (k : ℚ) (hk : 1 < k) :
    ((frames.length : ℤ) < ⌊(frames.length : ℚ) * k⌋ →
        process_folder sample frames k = none)
    ∧ (⌊(frames.length : ℚ) * k⌋ ≤ (frames.length : ℤ) →
        ∃ r, process_folder sample frames k = some r
          ∧ r.remaining = frames ∧ r.removed_count = 0) := by
  have hF0 : ¬ frames.length = 0 := by omega
  have hq0 : (0 : ℚ) ≤ (frames.length : ℚ) * k :=
    mul_nonneg (by positivity) (le_of_lt (lt_trans one_pos hk))
  have hpy : pyInt ((frames.length : ℚ) * k) = ⌊(frames.length : ℚ) * k⌋ := by
    rw [pyInt, if_neg (not_lt.mpr hq0)]
  have hzge : (frames.length : ℤ) ≤ ⌊(frames.length : ℚ) * k⌋ := by
    have hge : (frames.length : ℚ) ≤ (frames.length : ℚ) * k := by
      calc (frames.length : ℚ) = (frames.length : ℚ) * 1 := (mul_one _).symm
        _ ≤ (frames.length : ℚ) * k :=
            mul_le_mul_of_nonneg_left (le_of_lt hk) (by positivity)
    calc (frames.length : ℤ) = ⌊(frames.length : ℚ)⌋ :=
          (Int.floor_natCast _).symm
      _ ≤ ⌊(frames.length : ℚ) * k⌋ := Int.floor_le_floor hge
  constructor
  · intro hover
    have hguard : pyInt ((frames.length : ℚ) * k) < 0
        ∨ (frames.length : ℤ) < pyInt ((frames.length : ℚ) * k) := by
      rw [hpy]
      exact Or.inr hover
    simp only [process_folder]
    rw [if_neg hF0, if_pos hguard]
  · intro hle
    have hzeq : ⌊(frames.length : ℚ) * k⌋ = (frames.length : ℤ) :=
      le_antisymm hle hzge
    have htoNat : (pyInt ((frames.length : ℚ) * k)).toNat = frames.length := by
      rw [hpy, hzeq]
      exact Int.toNat_natCast _
    have hguard : ¬ (pyInt ((frames.length : ℚ) * k) < 0
        ∨ (frames.length : ℤ) < pyInt ((frames.length : ℚ) * k)) := by
      rw [hpy, hzeq]
      push_neg
      exact ⟨by omega, le_refl _⟩
    obtain ⟨hklen, hknd, hksub⟩ := hs frames frames.length hnd (le_refl _)
    have hperm : (sample frames frames.length).Perm frames := by
      obtain ⟨l, hlp, hsl⟩ := List.Nodup.subperm hknd
        (fun x hx => hksub x hx)
      have hleq : l = frames := hsl.eq_of_length (by
        rw [hlp.length_eq, hklen])
      exact hlp.symm.trans (hleq ▸ List.Perm.refl l)
    have hall : ∀ x ∈ frames, x ∈ sample frames frames.length :=
      fun x hx => hperm.mem_iff.mpr hx
    have heq : process_folder sample frames k
        = some ⟨frames.length,
                (pyInt ((frames.length : ℚ) * k)).toNat,
                (frames.filter (fun f =>
                  f ∉ sample frames
                    (pyInt ((frames.length : ℚ) * k)).toNat)).length,
                frames.filter (fun f =>
                  f ∈ sample frames
                    (pyInt ((frames.length : ℚ) * k)).toNat)⟩ := by
      simp only [process_folder]
      rw [if_neg hF0, if_neg hguard]
    refine ⟨_, heq, ?_, ?_⟩
    · show frames.filter (fun f =>
          f ∈ sample frames (pyInt ((frames.length : ℚ) * k)).toNat) = frames
      rw [htoNat]
      rw [List.filter_eq_self]
      intro a ha
      simpa using hall a ha
    · show (frames.filter (fun f =>
          f ∉ sample frames (pyInt ((frames.length : ℚ) * k)).toNat)).length
          = 0
      rw [htoNat]
      have hnil : frames.filter (fun f =>
          f ∉ sample frames frames.length) = [] := by
        rw [List.filter_eq_nil_iff]
        intro a ha
        simpa using hall a ha
      rw [hnil]
      rfl

/-- Witness for C10 (amended) at two files and `k = 2` (the overflow side)
and, through the same theorem, at one file and `k = 3/2` (the no-raise
side). -/
theorem c10_keep_above_one_witness :
    process_folder sampleTake ["a.jpg", "b.jpg"] 2 = none
    ∧ ∃ r, process_folder sampleTake ["a.jpg"] (3 / 2) = some r
        ∧ r.remaining = ["a.jpg"] ∧ r.removed_count = 0 := by
  constructor
  · exact (c10_keep_above_one sampleTake sampleTake_valid ["a.jpg", "b.jpg"]
      (by decide) (by decide) 2 (by norm_num)).1 (by norm_num)
  · exact (c10_keep_above_one sampleTake sampleTake_valid ["a.jpg"]
      (by decide) (by decide) (3 / 2) (by norm_num)).2 (by norm_num)

/-- Counterexample to C10 as stated: with one `.jpg` file and
`keep_percentage = 3/2 > 1`, `process_folder` does not raise —
`int(1 * 1.5) = 1` does not exceed the population — and completes, keeping
the file and deleting nothing. -/
theorem c10_counterexample :
    (1 : ℚ) < 3 / 2
    ∧ process_folder sampleTake ["a.jpg"] (3 / 2)
        = some ⟨1, 1, 0, ["a.jpg"]⟩ := by
  refine ⟨by norm_num, ?_⟩
  have hpy : pyInt ((1 : ℚ) * (3 / 2)) = 1 := by
    rw [pyInt, if_neg (by norm_num)]
    norm_num
  simp only [process_folder, List.length_singleton, Nat.cast_one]
  rw [if_neg (by norm_num), hpy]
  norm_num [sampleTake]

/-! ## Batching lemmas (`shuffle_and_split_pairs`) -/

theorem take_add_split (l : List α) :
    ∀ (m n : Nat), l.take (m + n) = l.take m ++ (l.drop m).take n := by
  induction l with
  | nil => intro m n; simp
  | cons a l ih =>
    intro m n
    cases m with
    | zero => simp
    | succ m =>
      rw [Nat.succ_add, List.take_succ_cons, List.take_succ_cons,
        List.drop_succ_cons, ih m n]
      rfl

theorem flatten_batches_take (l : List α) :
    ∀ k, k ≤ (l.length + BATCH_SIZE - 1) / BATCH_SIZE →
      ((List.range k).map (fun i =>
        (l.drop (i * BATCH_SIZE)).take
          (min (i * BATCH_SIZE + BATCH_SIZE) l.length - i * BATCH_SIZE))).flatten
        = l.take (min (k * BATCH_SIZE) l.length) := by
  intro k
  induction k with
  | zero => intro _; simp
  | succ k ih =>
    intro hk
    rw [List.range_succ, List.map_append, List.flatten_append,
      ih (by omega)]
    simp only [List.map_cons, List.map_nil, List.flatten_cons,
      List.flatten_nil, List.append_nil]
    have hkB : k * BATCH_SIZE < l.length := by
      simp only [BATCH_SIZE] at hk ⊢
      omega
    rw [Nat.min_eq_left (Nat.le_of_lt hkB), ← take_add_split]
    congr 1
    simp only [BATCH_SIZE] at hkB ⊢
    omega

theorem shuffle_and_split_length (shuffled : List α) :
    (shuffle_and_split_pairs shuffled).length
      = (shuffled.length + BATCH_SIZE - 1) / BATCH_SIZE := by
  simp [shuffle_and_split_pairs]

theorem shuffle_and_split_get_length (shuffled : List α) (i : Nat)
    (h : i < (shuffle_and_split_pairs shuffled).length) :
    ((shuffle_and_split_pairs shuffled).get ⟨i, h⟩).length
      = min BATCH_SIZE (shuffled.length - i * BATCH_SIZE) := by
  have hi : i < (shuffled.length + BATCH_SIZE - 1) / BATCH_SIZE := by
    rw [← shuffle_and_split_length shuffled]
    exact h
  have hun : shuffle_and_split_pairs shuffled
      = (List.range ((shuffled.length + BATCH_SIZE - 1) / BATCH_SIZE)).map
          (fun i =>
            (shuffled.drop (i * BATCH_SIZE)).take
              (min (i * BATCH_SIZE + BATCH_SIZE) shuffled.length
                - i * BATCH_SIZE)) := rfl
  rw [List.get_of_eq hun ⟨i, h⟩, List.get_eq_getElem, List.getElem_map,
    List.getElem_range, List.length_take, List.length_drop]
  simp only [BATCH_SIZE] at hi ⊢
  omega

/-- C8.  For every list of `P` image-label pairs (the batches are formed on
an arbitrary permutation of the input, standing for `random.shuffle`),
`shuffle_and_split_pairs` produces exactly `⌈P/500⌉` batches; every batch
except possibly the last has exactly 500 pairs, the last has the remainder
`P − 500·(batches − 1)`, and the concatenation of the batches is a
permutation of the input, so every pair lands in exactly one batch. -/
theorem c8_batching (pairs shuffled : List α) (hperm : shuffled.Perm pairs) :
    (shuffle_and_split_pairs shuffled).length
        = ⌈(pairs.length : ℚ) / (BATCH_SIZE : ℚ)⌉₊
    ∧ (∀ (i : Nat) (h : i < (shuffle_and_split_pairs shuffled).length),
        i + 1 < (shuffle_and_split_pairs shuffled).length →
        ((shuffle_and_split_pairs shuffled).get ⟨i, h⟩).length = BATCH_SIZE)
    ∧ (∀ hne : shuffle_and_split_pairs shuffled ≠ [],
        ((shuffle_and_split_pairs shuffled).getLast hne).length
          = pairs.length
            - BATCH_SIZE * ((shuffle_and_split_pairs shuffled).length - 1))
    ∧ (shuffle_and_split_pairs shuffled).flatten.Perm pairs := by
  have hlen : shuffled.length = pairs.length := hperm.length_eq
  have hNB := shuffle_and_split_length shuffled
  refine ⟨?_, ?_, ?_, ?_⟩
  · rw [hNB, hlen, ceil_div_eq pairs.length BATCH_SIZE (by simp [BATCH_SIZE])]
  · intro i h hlast
    rw [shuffle_and_split_get_length shuffled i h]
    rw [hNB] at h hlast
    simp only [BATCH_SIZE] at h hlast ⊢
    omega
  · intro hne
    have hpos : 0 < (shuffle_and_split_pairs shuffled).length :=
      List.length_pos.mpr hne
    have hg := shuffle_and_split_get_length shuffled
      ((shuffle_and_split_pairs shuffled).length - 1) (by omega)
    rw [List.get_eq_getElem] at hg
    rw [List.getLast_eq_getElem, hg, hNB] at *
    rw [hlen] at *
    simp only [BATCH_SIZE] at *
    omega
  · have hun : shuffle_and_split_pairs shuffled
        = (List.range ((shuffled.length + BATCH_SIZE - 1) / BATCH_SIZE)).map
            (fun i =>
              (shuffled.drop (i * BATCH_SIZE)).take
                (min (i * BATCH_SIZE + BATCH_SIZE) shuffled.length
                  - i * BATCH_SIZE)) := rfl
    have hflat : (shuffle_and_split_pairs shuffled).flatten = shuffled := by
      rw [hun, flatten_batches_take shuffled _ (le_refl _)]
      have hmin : min (((shuffled.length + BATCH_SIZE - 1) / BATCH_SIZE)
            * BATCH_SIZE) shuffled.length = shuffled.length := by
        simp only [BATCH_SIZE]
        omega
      rw [hmin, List.take_length]
    rw [hflat]
    exact hperm

/-- Witness for C8: a 3-element input in shuffled order `[2, 0, 1]` yields
one batch that is a permutation of the input. -/
theorem c8_batching_witness :
    (shuffle_and_split_pairs ([2, 0, 1] : List Nat)).length
        = ⌈(([0, 1, 2] : List Nat).length : ℚ) / (BATCH_SIZE : ℚ)⌉₊
    ∧ (∀ (i : Nat)
        (h : i < (shuffle_and_split_pairs ([2, 0, 1] : List Nat)).length),
        i + 1 < (shuffle_and_split_pairs ([2, 0, 1] : List Nat)).length →
        ((shuffle_and_split_pairs ([2, 0, 1] : List Nat)).get ⟨i, h⟩).length
          = BATCH_SIZE)
    ∧ (∀ hne : shuffle_and_split_pairs ([2, 0, 1] : List Nat) ≠ [],
        ((shuffle_and_split_pairs ([2, 0, 1] : List Nat)).getLast hne).length
          = ([0, 1, 2] : List Nat).length
            - BATCH_SIZE
              * ((shuffle_and_split_pairs ([2, 0, 1] : List Nat)).length - 1))
    ∧ (shuffle_and_split_pairs ([2, 0, 1] : List Nat)).flatten.Perm
        ([0, 1, 2] : List Nat) :=
  c8_batching [0, 1, 2] [2, 0, 1] (by decide)

/-! ## Class-id counting lemmas -/

theorem getCount_bump_self :
    ∀ (acc : List (String × Nat)) (c : String),
      getCount (bumpCount acc c) c = getCount acc c + 1 := by
  intro acc c
  induction acc with
  | nil => simp [bumpCount, getCount]
  | cons p rest ih =>
    obtain ⟨k, v⟩ := p
    by_cases hk : k = c
    · rw [bumpCount, if_pos hk, getCount, if_pos hk, getCount, if_pos hk]
    · rw [bumpCount, if_neg hk, getCount, if_neg hk, getCount, if_neg hk]
      exact ih

theorem getCount_bump_ne :
    ∀ (acc : List (String × Nat)) (c d : String), d ≠ c →
      getCount (bumpCount acc c) d = getCount acc d := by
  intro acc c d hne
  induction acc with
  | nil => simp [bumpCount, getCount, Ne.symm hne]
  | cons p rest ih =>
    obtain ⟨k, v⟩ := p
    by_cases hk : k = c
    · have hkd : k ≠ d := fun h => hne (h.symm.trans hk)
      rw [bumpCount, if_pos hk, getCount, if_neg hkd, getCount, if_neg hkd]
    · rw [bumpCount, if_neg hk]
      by_cases hkd : k = d
      · rw [getCount, if_pos hkd, getCount, if_pos hkd]
      · rw [getCount, if_neg hkd, getCount, if_neg hkd]
        exact ih

theorem keys_bump (acc : List (String × Nat)) (c : String) :
    (bumpCount acc c).map (fun p => p.1)
      = if c ∈ acc.map (fun p => p.1) then acc.map (fun p => p.1)
        else acc.map (fun p => p.1) ++ [c] := by
  induction acc with
  | nil => simp [bumpCount]
  | cons p rest ih =>
    obtain ⟨k, v⟩ := p
    by_cases hk : k = c
    · subst hk
      rw [bumpCount, if_pos rfl]
      simp
    · rw [bumpCount, if_neg hk]
      by_cases hc : c ∈ rest.map (fun p => p.1)
      · have hmem : c ∈ ((k, v) :: rest).map (fun p => p.1) := by
          simp [hc]
        rw [if_pos hmem]
        simp only [List.map_cons, ih, if_pos hc]
      · have hmem : c ∉ ((k, v) :: rest).map (fun p => p.1) := by
          simp only [List.map_cons, List.mem_cons]
          rintro (h | h)
          · exact hk h.symm
          · exact hc h
        rw [if_neg hmem]
        simp only [List.map_cons, ih, if_neg hc]
        rfl

theorem mem_keys_bump (acc : List (String × Nat)) (c d : String) :
    c ∈ (bumpCount acc d).map (fun p => p.1)
      ↔ (c ∈ acc.map (fun p => p.1) ∨ c = d) := by
  rw [keys_bump]
  by_cases hd : d ∈ acc.map (fun p => p.1)
  · rw [if_pos hd]
    constructor
    · exact fun h => Or.inl h
    · rintro (h | rfl)
      · exact h
      · exact hd
  · rw [if_neg hd]
    simp

theorem keys_bump_nodup (acc : List (String × Nat)) (c : String)
    (h : (acc.map (fun p => p.1)).Nodup) :
    ((bumpCount acc c).map (fun p => p.1)).Nodup := by
  rw [keys_bump]
  by_cases hc : c ∈ acc.map (fun p => p.1)
  · rw [if_pos hc]
    exact h
  · rw [if_neg hc]
    refine h.append (List.nodup_singleton c) ?_
    intro a ha hb
    simp at hb
    subst hb
    exact hc ha

theorem bump_pos (acc : List (String × Nat)) (c : String)
    (h : ∀ p ∈ acc, 0 < p.2) : ∀ p ∈ bumpCount acc c, 0 < p.2 := by
  induction acc with
  | nil =>
    intro p hp
    simp [bumpCount] at hp
    subst hp
    simp
  | cons q rest ih =>
    obtain ⟨k, v⟩ := q
    intro p hp
    by_cases hk : k = c
    · rw [bumpCount, if_pos hk] at hp
      rcases List.mem_cons.mp hp with h1 | h1
      · subst h1
        simp
      · exact h p (List.mem_cons_of_mem _ h1)
    · rw [bumpCount, if_neg hk] at hp
      rcases List.mem_cons.mp hp with h1 | h1
      · subst h1
        exact h (k, v) (List.mem_cons_self _ _)
      · exact ih (fun q hq => h q (List.mem_cons_of_mem _ hq)) p h1

theorem getCount_of_mem :
    ∀ (acc : List (String × Nat)),
      (acc.map (fun p => p.1)).Nodup →
      ∀ (c : String) (m : Nat), (c, m) ∈ acc → getCount acc c = m := by
  intro acc
  induction acc with
  | nil => intro _ c m hm; simp at hm
  | cons p rest ih =>
    obtain ⟨k, v⟩ := p
    intro hnd c m hm
    rcases List.mem_cons.mp hm with h | h
    · have h1 : k = c := (Prod.mk.inj h.symm).1
      have h2 : v = m := (Prod.mk.inj h.symm).2
      rw [getCount, if_pos h1]
      exact h2
    · have hk : k ≠ c := by
        intro hkc
        subst hkc
        have hcmem : k ∈ rest.map (fun p => p.1) :=
          List.mem_map_of_mem (fun p => p.1) h
        exact (List.nodup_cons.mp (by simpa using hnd)).1 hcmem
      rw [getCount, if_neg hk]
      exact ih (by simpa using (List.nodup_cons.mp (by simpa using hnd)).2)
        c m h

theorem mem_of_key_mem :
    ∀ (acc : List (String × Nat)) (c : String),
      c ∈ acc.map (fun p => p.1) → (c, getCount acc c) ∈ acc := by
  intro acc
  induction acc with
  | nil => intro c hc; simp at hc
  | cons p rest ih =>
    obtain ⟨k, v⟩ := p
    intro c hc
    by_cases hk : k = c
    · subst hk
      rw [getCount, if_pos rfl]
      exact List.mem_cons_self _ _
    · have hcrest : c ∈ rest.map (fun p => p.1) := by
        rw [List.map_cons] at hc
        rcases List.mem_cons.mp hc with h | h
        · exact absurd h.symm hk
        · exact h
      rw [getCount, if_neg hk]
      exact List.mem_cons_of_mem _ (ih c hcrest)

theorem occLines_cons (line : String) (rest : List String) (c : String) :
    occLines (line :: rest) c
      = (if (pySplit line).head? = some c then 1 else 0) + occLines rest c := by
  rw [occLines, occLines]
  by_cases hl : (pySplit line).head? = some c
  · rw [List.filter_cons_of_pos (by simpa using hl), List.length_cons,
      if_pos hl]
    omega
  · rw [List.filter_cons_of_neg (by simpa using hl), if_neg hl]
    omega

theorem foldl_tallyStep_getCount :
    ∀ (lines : List String) (acc : List (String × Nat)) (c : String),
      getCount (lines.foldl tallyStep acc) c
        = getCount acc c + occLines lines c := by
  intro lines
  induction lines with
  | nil => intro acc c; simp [occLines]
  | cons line rest ih =>
    intro acc c
    rw [List.foldl_cons, ih (tallyStep acc line) c, occLines_cons]
    cases hsp : pySplit line with
    | nil =>
      simp only [tallyStep, hsp, List.head?_nil]
      rw [if_neg (by simp)]
      omega
    | cons d ds =>
      simp only [tallyStep, hsp, List.head?_cons]
      by_cases hd : d = c
      · subst hd
        rw [getCount_bump_self, if_pos rfl]
        omega
      · rw [getCount_bump_ne acc d c (fun h => hd h.symm),
          if_neg (by simp [hd])]
        omega

theorem foldl_tallyStep_nodup :
    ∀ (lines : List String) (acc : List (String × Nat)),
      (acc.map (fun p => p.1)).Nodup →
      ((lines.foldl tallyStep acc).map (fun p => p.1)).Nodup := by
  intro lines
  induction lines with
  | nil => intro acc h; exact h
  | cons line rest ih =>
    intro acc h
    rw [List.foldl_cons]
    refine ih (tallyStep acc line) ?_
    cases hsp : pySplit line with
    | nil => simpa [tallyStep, hsp] using h
    | cons d ds =>
      simp only [tallyStep, hsp]
      exact keys_bump_nodup acc d h

theorem foldl_tallyStep_pos :
    ∀ (lines : List String) (acc : List (String × Nat)),
      (∀ p ∈ acc, 0 < p.2) →
      ∀ p ∈ lines.foldl tallyStep acc, 0 < p.2 := by
  intro lines
  induction lines with
  | nil => intro acc h; exact h
  | cons line rest ih =>
    intro acc h
    rw [List.foldl_cons]
    refine ih (tallyStep acc line) ?_
    cases hsp : pySplit line with
    | nil => simpa [tallyStep, hsp] using h
    | cons d ds =>
      simp only [tallyStep, hsp]
      exact bump_pos acc d h

theorem foldl_tallyStep_mem_key :
    ∀ (lines : List String) (acc : List (String × Nat)) (c : String),
      c ∈ (lines.foldl tallyStep acc).map (fun p => p.1)
        ↔ (c ∈ acc.map (fun p => p.1) ∨ 0 < occLines lines c) := by
  intro lines
  induction lines with
  | nil => intro acc c; simp [occLines]
  | cons line rest ih =>
    intro acc c
    rw [List.foldl_cons, ih (tallyStep acc line) c, occLines_cons]
    cases hsp : pySplit line with
    | nil =>
      simp only [tallyStep, hsp, List.head?_nil]
      rw [if_neg (by simp)]
      simp
    | cons d ds =>
      simp only [tallyStep, hsp, List.head?_cons]
      rw [mem_keys_bump]
      by_cases hd : d = c
      · subst hd
        rw [if_pos rfl]
        constructor
        · intro _
          exact Or.inr (by omega)
        · intro _
          exact Or.inl (Or.inr rfl)
      · rw [if_neg (by simp [hd])]
        constructor
        · rintro ((h | h) | h)
          · exact Or.inl h
          · exact absurd h.symm hd
          · exact Or.inr (by omega)
        · rintro (h | h)
          · exact Or.inl (Or.inl h)
          · exact Or.inr (by omega)

/-- C7.  `count_class_ids` treats the first whitespace-delimited token of
each line as a class identifier: for every class id `c`, the reported count
is exactly the number of lines across all files whose first token is `c`
(each such line contributing one), ids never seen are not reported, and the
printed table is sorted by the class id interpreted as a number (Python
`int(...)`; the hypothesis states that every occurring id is a decimal
numeral, as `int` otherwise raises). -/
theorem c7_class_id_counts (files : List (List String))
    (hnum : ∀ line ∈ files.flatten, ∀ c ∈ (pySplit line).head?,
      isDecimalNumeral c = true) :
    (∀ (c : String) (m : Nat), (c, m) ∈ count_class_ids files →
      m = occCount files c ∧ 0 < m)
    ∧ (∀ c : String, 0 < occCount files c →
        (c, occCount files c) ∈ count_class_ids files)
    ∧ (count_class_ids files).Pairwise (fun a b =>
        isDecimalNumeral a.1 = true ∧ isDecimalNumeral b.1 = true
        ∧ numKey a.1 ≤ numKey b.1) := by
  have hperm : (count_class_ids files).Perm (tallyLines files) :=
    List.mergeSort_perm (tallyLines files) _
  have hnd : ((tallyLines files).map (fun p => p.1)).Nodup :=
    foldl_tallyStep_nodup files.flatten [] (by simp)
  have hcount : ∀ c, getCount (tallyLines files) c = occCount files c := by
    intro c
    rw [tallyLines, foldl_tallyStep_getCount files.flatten [] c, occCount]
    simp [getCount]
  have hpart1 : ∀ (c : String) (m : Nat), (c, m) ∈ count_class_ids files →
      m = occCount files c ∧ 0 < m := by
    intro c m hm
    have hmem : (c, m) ∈ tallyLines files := hperm.subset hm
    have hpos : 0 < m :=
      foldl_tallyStep_pos files.flatten [] (by simp) (c, m) hmem
    have hgc := getCount_of_mem (tallyLines files) hnd c m hmem
    exact ⟨by rw [← hcount c, hgc], hpos⟩
  have hpart2 : ∀ c : String, 0 < occCount files c →
      (c, occCount files c) ∈ count_class_ids files := by
    intro c hocc
    have hkey : c ∈ (tallyLines files).map (fun p => p.1) := by
      rw [tallyLines, foldl_tallyStep_mem_key files.flatten [] c]
      exact Or.inr hocc
    have hmem := mem_of_key_mem (tallyLines files) c hkey
    rw [hcount c] at hmem
    exact hperm.mem_iff.mpr hmem
  have hnumeral : ∀ p ∈ count_class_ids files, isDecimalNumeral p.1 = true := by
    intro p hp
    have hpos : 0 < occCount files p.1 := by
      have h1 := (hpart1 p.1 p.2 hp).1
      have h2 := (hpart1 p.1 p.2 hp).2
      omega
    rw [occCount, occLines] at hpos
    obtain ⟨line, hline⟩ := List.exists_mem_of_length_pos hpos
    have hline2 := List.mem_filter.mp hline
    have htok : (pySplit line).head? = some p.1 := by
      simpa using hline2.2
    exact hnum line hline2.1 p.1 (by rw [htok]; rfl)
  refine ⟨hpart1, hpart2, ?_⟩
  have hsorted : (count_class_ids files).Pairwise
      (fun a b => decide (numKey a.1 ≤ numKey b.1) = true) := by
    simp only [count_class_ids]
    exact List.sorted_mergeSort
      (by
        intro x y z hxy hyz
        simp only [decide_eq_true_eq] at hxy hyz ⊢
        omega)
      (by
        intro x y
        simp only [Bool.or_eq_true, decide_eq_true_eq]
        omega)
      (tallyLines files)
  refine hsorted.imp_of_mem ?_
  intro a b ha hb hr
  exact ⟨hnumeral a ha, hnumeral b hb, by simpa using hr⟩

/-- Witness for C7 at a concrete label folder (one file, lines for classes
3, 10 and 3 again): the table reports class 3 with its line count. -/
theorem c7_class_id_counts_witness :
    ("3", occCount [["3 0.1 0.2 0.3 0.4", "10 x", "3 y"]] "3")
      ∈ count_class_ids [["3 0.1 0.2 0.3 0.4", "10 x", "3 y"]] :=
  (c7_class_id_counts [["3 0.1 0.2 0.3 0.4", "10 x", "3 y"]]
    (by decide)).2.1 "3" (by decide)

/-! ## Folder-combination lemmas (`combine_folders`) -/

theorem lastDotSplit_append :
    ∀ (cs pre post : List Char), lastDotSplit cs = some (pre, post) →
      pre ++ post = cs := by
  intro cs
  induction cs with
  | nil => intro pre post h; simp [lastDotSplit] at h
  | cons c rest ih =>
    intro pre post h
    rw [lastDotSplit] at h
    cases hrec : lastDotSplit rest with
    | some pr =>
      obtain ⟨pr1, pr2⟩ := pr
      rw [hrec] at h
      simp only [Option.some.injEq, Prod.mk.injEq] at h
      obtain ⟨h1, h2⟩ := h
      rw [← h1, ← h2]
      rw [List.cons_append, ih pr1 pr2 hrec]
    | none =>
      rw [hrec] at h
      by_cases hc : c = '.'
      · rw [if_pos hc] at h
        simp only [Option.some.injEq, Prod.mk.injEq] at h
        obtain ⟨h1, h2⟩ := h
        rw [← h1, ← h2]
        rfl
      · rw [if_neg hc] at h
        exact absurd h (by simp)

theorem pySplitext_append (s : String) :
    (pySplitext s).1 ++ (pySplitext s).2 = s := by
  rw [pySplitext]
  cases hsplit : lastDotSplit s.data with
  | none => simp
  | some pr =>
    obtain ⟨pre, post⟩ := pr
    by_cases hall : pre.all (fun c => c = '.')
    · simp [hall]
    · simp only [hall, Bool.false_eq_true, if_false]
      apply String.ext
      rw [String.data_append]
      exact lastDotSplit_append s.data pre post hsplit

theorem mkCand_length (name ext : String) (i : Nat) :
    (mkCand name ext i).length
      = name.length + 1 + (Nat.repr i).length + ext.length := by
  rw [mkCand, String.length_append, String.length_append,
    String.length_append]
  have h1 : ("_" : String).length = 1 := rfl
  rw [h1]

theorem mkCand_counter_inj (name ext : String) (i j : Nat)
    (h : mkCand name ext i = mkCand name ext j) : i = j := by
  have hdata := congrArg String.data h
  rw [mkCand, mkCand, String.data_append, String.data_append,
    String.data_append, String.data_append, String.data_append,
    String.data_append] at hdata
  have h2 := List.append_cancel_right hdata
  have h3 := List.append_cancel_left h2
  exact repr_inj i j (String.ext h3)

theorem image_ne_mkCand (image : String) (i : Nat) :
    image ≠ mkCand (pySplitext image).1 (pySplitext image).2 i := by
  intro h
  have hlen := congrArg String.length h
  rw [mkCand_length] at hlen
  have hrec := congrArg String.length (pySplitext_append image)
  rw [String.length_append] at hrec
  have hpos := repr_length_pos i
  omega

theorem resolveGo_not_mem (names : List String) (name ext : String) :
    ∀ (fuel : Nat) (dest : String) (counter : Nat),
      (∃ c ∈ candList name ext fuel dest counter, c ∉ names) →
      resolveGo names name ext fuel dest counter ∉ names := by
  intro fuel
  induction fuel with
  | zero =>
    intro dest counter h
    obtain ⟨c, hc, _⟩ := h
    simp [candList] at hc
  | succ f ih =>
    intro dest counter h
    rw [resolveGo]
    by_cases hdest : dest ∈ names
    · rw [if_pos hdest]
      refine ih (mkCand name ext counter) (counter + 1) ?_
      obtain ⟨c, hc, hcn⟩ := h
      rw [candList] at hc
      rcases List.mem_cons.mp hc with h1 | h1
      · exact absurd (h1 ▸ hdest) hcn
      · exact ⟨c, h1, hcn⟩
    · rw [if_neg hdest]
      exact hdest

theorem candList_eq (name ext : String) :
    ∀ (fuel : Nat) (dest : String) (counter : Nat),
      candList name ext (fuel + 1) dest counter
        = dest :: (List.range fuel).map
            (fun i => mkCand name ext (counter + i)) := by
  intro fuel
  induction fuel with
  | zero => intro dest counter; rfl
  | succ f ih =>
    intro dest counter
    rw [candList, ih (mkCand name ext counter) (counter + 1),
      List.range_succ_eq_map, List.map_cons, List.map_map]
    have hfun : ((fun i => mkCand name ext (counter + i)) ∘ Nat.succ)
        = fun i => mkCand name ext (counter + 1 + i) := by
      funext i
      simp only [Function.comp_apply]
      rw [show counter + Nat.succ i = counter + 1 + i by omega]
    rw [hfun]
    simp

theorem exists_free_candidate (cands names : List String)
    (hnd : cands.Nodup) (hlen : names.length < cands.length) :
    ∃ c ∈ cands, c ∉ names := by
  by_contra hcon
  push_neg at hcon
  have hsub := (List.Nodup.subperm hnd (fun x hx => hcon x hx)).length_le
  omega

theorem resolveName_fresh (names : List String) (image : String) :
    resolveName names image ∉ names := by
  rw [resolveName]
  apply resolveGo_not_mem
  rw [candList_eq]
  apply exists_free_candidate
  · rw [List.nodup_cons]
    constructor
    · intro hmem
      obtain ⟨i, _, hi⟩ := List.mem_map.mp hmem
      exact image_ne_mkCand image (1 + i) hi.symm
    · refine List.Nodup.map_on ?_ (List.nodup_range names.length)
      intro i _ j _ hij
      have := mkCand_counter_inj _ _ _ _ hij
      omega
  · simp

theorem copyResolved_names_nodup (out : List (String × α)) (image : String)
    (content : α) (hnd : (fsNames out).Nodup) :
    (fsNames (copyResolved out image content)).Nodup := by
  rw [copyResolved, fsNames, List.map_append]
  refine hnd.append (List.nodup_singleton _) ?_
  intro a ha hb
  simp only [List.map_cons, List.map_nil, List.mem_singleton] at hb
  subst hb
  exact resolveName_fresh (fsNames out) image ha

theorem foldl_copyResolved (images : List (String × α)) :
    ∀ (out : List (String × α)), (fsNames out).Nodup →
      ∃ newEntries,
        images.foldl (fun o f => copyResolved o f.1 f.2) out
          = out ++ newEntries
        ∧ newEntries.map (fun e => e.2) = images.map (fun e => e.2)
        ∧ (fsNames (out ++ newEntries)).Nodup := by
  induction images with
  | nil =>
    intro out hnd
    exact ⟨[], by simp, rfl, by simpa⟩
  | cons f fs ih =>
    intro out hnd
    have hnd2 : (fsNames (copyResolved out f.1 f.2)).Nodup :=
      copyResolved_names_nodup out f.1 f.2 hnd
    obtain ⟨rest, hrest, hcontents, hndf⟩ :=
      ih (copyResolved out f.1 f.2) hnd2
    refine ⟨(resolveName (fsNames out) f.1, f.2) :: rest, ?_, ?_, ?_⟩
    · rw [List.foldl_cons, hrest, copyResolved, List.append_assoc]
      rfl
    · simp [hcontents]
    · rw [copyResolved, List.append_assoc] at hndf
      exact hndf

theorem combine_folders_eq_foldl (subfolders : List (List (String × α))) :
    ∀ output : List (String × α),
      combine_folders subfolders output
        = ((subfolders.map jpgImages).flatten).foldl
            (fun o f => copyResolved o f.1 f.2) output := by
  induction subfolders with
  | nil => intro output; rfl
  | cons sf sfs ih =>
    intro output
    rw [combine_folders, List.foldl_cons, List.map_cons, List.flatten_cons,
      List.foldl_append]
    exact ih _

/-- C6.  `combine_folders` never silently overwrites a file: starting from a
duplicate-free output folder, the result is the original folder followed by
exactly one new entry per jpg image of each immediate subfolder, in order,
each carrying the byte-identical content of its source, and all output names
are pairwise distinct (collisions having been renamed).  Moreover, merging
two subfolders that both contain `a.jpg` yields `a.jpg` and `a_1.jpg`,
holding the two sources' contents respectively. -/
theorem c6_combine_preserves_all (subfolders : List (List (String × α)))
    (output : List (String × α)) (hnd : (fsNames output).Nodup)
    (c1 c2 : α) :
    (∃ newEntries,
      combine_folders subfolders output = output ++ newEntries
      ∧ newEntries.map (fun e => e.2)
          = ((subfolders.map jpgImages).flatten).map (fun e => e.2)
      ∧ (fsNames (output ++ newEntries)).Nodup)
    ∧ combine_folders [[("a.jpg", c1)], [("a.jpg", c2)]] ([] : List (String × α))
        = [("a.jpg", c1), ("a_1.jpg", c2)] := by
  constructor
  · rw [combine_folders_eq_foldl]
    exact foldl_copyResolved _ output hnd
  · rfl

/-- Witness for C6: merging two singleton subfolders over an empty output
folder. -/
theorem c6_combine_preserves_all_witness :
    (∃ newEntries,
      combine_folders [[("a.jpg", 10), ("b.txt", 99)], [("a.jpg", 20)]]
          ([] : List (String × Nat)) = [] ++ newEntries
      ∧ newEntries.map (fun e => e.2)
          = ((([[("a.jpg", 10), ("b.txt", 99)],
              [("a.jpg", 20)]] : List (List (String × Nat))).map
                jpgImages).flatten).map (fun e => e.2)
      ∧ (fsNames (([] : List (String × Nat)) ++ newEntries)).Nodup)
    ∧ combine_folders [[("a.jpg", 1)], [("a.jpg", 2)]]
        ([] : List (String × Nat)) = [("a.jpg", 1), ("a_1.jpg", 2)] :=
  c6_combine_preserves_all
    [[("a.jpg", 10), ("b.txt", 99)], [("a.jpg", 20)]] [] (by decide) 1 2

end VidPrep

